import Mathlib

/-!
Verification of the SCFS core (SplitFS / CatFS) against its specification.

The definitions below are shallow embeddings of the Rust sources:
  src/splitfs.rs  (SplitFS::populate, SplitFS::open, SplitFS::read,
                   SplitFS::get_attr_from_file_info, SplitFS::readdir)
  src/catfs.rs    (CatFS::new, CatFS::populate, CatFS::read, CatFS::readdir)
  src/shared.rs   (Shared::readlink)
  src/lib.rs      (Config, FileInfo rows, reserved inode constants)

File contents are lists of byte values (`List Nat`), machine integers are
`Nat` with an explicit `% 2 ^ 64` where u64 wrap-around matters, and the
recursive directory walks are embedded with an explicit fuel argument
(the Rust recursion is on a finite on-disk tree; `none` at fuel 0 simply
means the chosen fuel did not cover the tree).
-/

/-! ## Reserved inodes (src/lib.rs) -/

def INO_OUTSIDE : Nat := 0

def INO_ROOT : Nat := 1

def INO_CONFIG : Nat := 2

def INO_FIRST_FREE : Nat := 10

/-! ## CatFS read engine (src/catfs.rs, `CatFS::read`)

A Cat file handle is the ordered list of its chunk files; we embed it as
the list of the chunk contents.  `catTotal` is the logical file size that
`CatFS::read` re-derives through `get_attr_from_file_info` (for a vdir:
the sum of the children's sizes). -/

def catTotal (chunks : List (List Nat)) : Nat := (chunks.map List.length).sum

/-- Embedding of `CatFS::read`.  The code clamps `offset` to the logical
size and then `size` to the remaining bytes, replies `[]` at once when the
clamped size is zero, and otherwise streams chunks `part_start ..= part_end`
where the first chunk is entered at `offset % blocksize` and every other
chunk from the beginning; the concatenation is truncated with
`take(size)`.  The per-chunk indexing `handles.get(part).unwrap()` is
embedded as `drop`/`take` on the chunk list; it agrees with the code
whenever `part_end` is in bounds, which the well-formedness facts proved
below guarantee. -/
def catAssemble (r s : Nat) : List (List Nat) → List Nat
  | [] => []
  | f :: rest => ((f.drop r) ++ rest.flatten).take s

def catRead (B : Nat) (chunks : List (List Nat)) (offset size : Nat) : List Nat :=
  let total := catTotal chunks
  let o := min offset total
  let s := min size (total - o)
  if s = 0 then []
  else
    let ps := o / B
    let pe := (o + s - 1) / B
    catAssemble (o % B) s ((chunks.drop ps).take (pe - ps + 1))

/-- Shape of the chunk list of one file in a mirror produced by SplitFS:
every chunk except the last has exactly `B` bytes and the last has at
most `B` bytes. -/
def chunksWF (B : Nat) : List (List Nat) → Bool
  | [] => true
  | [c] => decide (c.length ≤ B)
  | c :: rest => (c.length == B) && chunksWF B rest

/-! ## SplitFS populate and attribute resolver (src/splitfs.rs)

`SplitFS::populate` computes its chunk count as
`1.max(f64::ceil(size as f64 / blocksize as f64) as u64)`.  The spec
states this count as `max(1, ceil(s / B))`; the two agree while the
sizes involved stay inside f64's 53-bit integer range, but diverge above
it, because the `as f64` cast rounds: at `s = 2^53 + 1`, `B = 1` the
cast rounds the size down to `2^53` (ties to even), the code creates
`2^53` chunk rows, and the file's final byte is covered by no chunk.
`splitNumChunks` below is the exact ceiling the spec intends (what the
code computes in the exactly-representable regime); `f64RoundNat` /
`splitNumChunksF64One` further down model the code's f64 pipeline at
`B = 1`, and the C1/C3 theorems exhibit the divergence.
`SplitFS::get_attr_from_file_info` clamps a chunk's size to
`min(blocksize, backing_size - (part - 1) * blocksize)`; the subtraction
never underflows for the parts `1 ..= N` that populate creates, so plain
`Nat` subtraction is faithful on that domain. -/

def splitNumChunks (s B : Nat) : Nat := max 1 ((s + B - 1) / B)

def splitChunkSize (s B part : Nat) : Nat := min B (s - (part - 1) * B)

/-- The `part` column values of the chunk rows of one file, in insertion
order (`part = i + 1` for `i in 0..blocks`). -/
def splitParts (s B : Nat) : List Nat := (List.range (splitNumChunks s B)).map (· + 1)

/-- Embedding of `SplitFS::read` for a non-config inode: the handle holds
`start` and `endv` into the backing file, `offset` is clamped to
`endv - start`, `size` to the remaining span, and the worker seeks to
`start + offset` and reads at most `size` bytes (fewer if the backing
file ends first, exactly like `file.take(size)`). -/
def splitRead (content : List Nat) (start endv offset size : Nat) : List Nat :=
  let o := min offset (endv - start)
  let s := min size (endv - start - o)
  (content.drop (start + o)).take s

/-- Bytes of chunk `i` (0-based) of a file as served by SplitFS: a full
read of the chunk through the handle `(i*B, i*B + B)`. -/
def splitChunkData (content : List Nat) (B i : Nat) : List Nat :=
  splitRead content (i * B) (i * B + B) 0 B

/-- The chunk directory SplitFS presents for one regular file, in part
order, with the spec-intended exact-ceiling chunk count (the program's
f64 count agrees only inside f64's exact integer range; the variant the
code computes at blocksize 1 is `codeSplitChunksB1` below). -/
def splitChunks (content : List Nat) (B : Nat) : List (List Nat) :=
  (List.range (splitNumChunks content.length B)).map (splitChunkData content B)

/-! ## The code's f64 chunk count (src/splitfs.rs line 149)

`f64RoundNat n` is the value of the Rust cast `n as f64` for `n < 2^64`:
below `2^53` every natural is exactly representable; above it the cast
rounds to the nearest multiple of the ulp `2^(bitlength - 53)`, ties to
even.  At blocksize 1 the rest of the code's pipeline is exact:
`1 as f64` is `1.0`, division by `1.0` returns the dividend unchanged,
`f64::ceil` is the identity on an integral value, and `as u64` of a
nonnegative integral double below `2^64` yields its value — so the
code's chunk count at `B = 1` is `max 1 (f64RoundNat s)`. -/

def bitLen64 (n : Nat) : Nat :=
  (List.range 64).foldl (fun acc i => if 2 ^ i ≤ n then i + 1 else acc) 0

def f64RoundNat (n : Nat) : Nat :=
  if n ≤ 2 ^ 53 then n
  else
    let k := bitLen64 n - 53
    let q := n / 2 ^ k
    let r := n % 2 ^ k
    let half := 2 ^ (k - 1)
    let q2 := if half < r ∨ (r = half ∧ q % 2 = 1) then q + 1 else q
    q2 * 2 ^ k

/-- The chunk count `1.max(f64::ceil(size as f64 / blocksize as f64) as
u64)` the code computes at blocksize 1. -/
def splitNumChunksF64One (s : Nat) : Nat := max 1 (f64RoundNat s)

/-- The chunk directory the program actually creates for one regular
file at blocksize 1: the code's f64 chunk count, each chunk served
through the Split read engine. -/
def codeSplitChunksB1 (content : List Nat) : List (List Nat) :=
  (List.range (splitNumChunksF64One content.length)).map (splitChunkData content 1)

/-! ## Read-engine clamping (claim C4)

`SplitFS::read` clamps `offset` and `size` against the handle's span
`end - start` (always the blocksize), with no call to the attribute
resolver and no early return on a zero clamped size.  `CatFS::read`
clamps against the resolver-derived file size and returns empty data at
once when the clamped size is zero (see `catRead`). -/

def splitReadClamp (start endv offset size : Nat) : Nat × Nat :=
  let o := min offset (endv - start)
  (o, min size (endv - start - o))

/-- Modelled from the spec's words (for comparison with the code): the
effective size obtained by clamping `size` to the entity's logical size
from the Attribute Resolver, after clamping the offset to it. -/
def specClampSize (logical offset size : Nat) : Nat :=
  min size (logical - min offset logical)

/-! ## Directory protocol (claim C7)

`SplitFS::readdir` and `CatFS::readdir` share one structure: synthetic
entries `.` (cookie 1, when offset < 1), `..` (cookie 2, when offset < 2,
inode is the parent or self at the root), and — in Split, for the root
directory only — `.scfs_config` (cookie 3, when offset < 3).  A database
child at position `k` of `children(ino, max(0, offset - H))` is emitted
with cookie `offset + Δ + k + 1` where `Δ` counts the synthetic entries
emitted in this call.  `hasConfig` is true exactly for the Split root
(the same `ino == 1` test governs both the config entry and `H`);
`CatFS::readdir` is the `hasConfig = false` instance (its `Δ` if-chain
`2 / 1 / 0` equals the number of synthetic entries it emitted). -/

inductive DirEnt (α : Type) where
  | dot (ino : Nat)
  | dotdot (ino : Nat)
  | conf
  | child (c : α)
deriving DecidableEq

def withCookies {α : Type} (start : Nat) : List α → List (Nat × DirEnt α)
  | [] => []
  | c :: cs => (start, DirEnt.child c) :: withCookies (start + 1) cs

def synthH (hasConfig : Bool) : Nat := 2 + if hasConfig then 1 else 0

def synthEntries {α : Type} (hasConfig : Bool) (dirIno parentIno offset : Nat) :
    List (Nat × DirEnt α) :=
  (if offset < 1 then [(1, DirEnt.dot dirIno)] else [])
    ++ (if offset < 2 then
          [(2, DirEnt.dotdot (if parentIno = INO_OUTSIDE then dirIno else parentIno))]
        else [])
    ++ (if offset < 3 ∧ hasConfig = true then [(3, DirEnt.conf)] else [])

def synthCount (hasConfig : Bool) (offset : Nat) : Nat :=
  (if offset < 1 then 1 else 0) + (if offset < 2 then 1 else 0)
    + (if offset < 3 ∧ hasConfig = true then 1 else 0)

def readdirEntries {α : Type} (hasConfig : Bool) (dirIno parentIno : Nat)
    (children : List α) (offset : Nat) : List (Nat × DirEnt α) :=
  let synth := synthEntries hasConfig dirIno parentIno offset
  synth ++ withCookies (offset + synth.length + 1) (children.drop (offset - synthH hasConfig))

/-! ## Cat mount-time configuration (claim C8, src/catfs.rs `CatFS::new`)

`CatFS::new` reads `<mirror>/.scfs_config`; a failed read panics with
"SCFS config file not found" and a failed `serde_json` parse panics with
"SCFS config file contains invalid JSON".  The JSON parser is an external
library, embedded as a parameter. -/

structure Config where
  blocksize : Nat
deriving DecidableEq, Repr

def readCatConfig (contents : Option String) (parse : String → Option Config) :
    Except String Config :=
  match contents with
  | none => Except.error "SCFS config file not found"
  | some s =>
    match parse s with
    | none => Except.error "SCFS config file contains invalid JSON"
    | some c => Except.ok c

/-! ## Chunk-name parsing in Cat populate (claim C5, src/catfs.rs)

`CatFS::populate` computes `part` for every regular file (except the
config file, skipped earlier) as
`path.file_name()[5..].parse::<u64>().unwrap() + 1`.  Byte-slicing a name
shorter than 5 bytes panics, as does a failed parse; both are `none`
here.  Rust's `u64::from_str` accepts an optional leading `+`, then one
or more decimal digits, and fails on overflow; the `+ 1` wraps in u64
arithmetic.  Names are ASCII in all inputs considered, so `List Char`
positions coincide with Rust's byte positions. -/

def isDigitB (c : Char) : Bool := 48 ≤ c.toNat && c.toNat ≤ 57

def digitsVal (cs : List Char) : Nat :=
  cs.foldl (fun a c => a * 10 + (c.toNat - 48)) 0

def parseU64 (cs : List Char) : Option Nat :=
  let ds := if cs.head? = some '+' then cs.tail else cs
  if ds = [] then none
  else if ds.all isDigitB then
    if digitsVal ds < 2 ^ 64 then some (digitsVal ds) else none
  else none

def partOfName (name : List Char) : Option Nat :=
  if name.length < 5 then none
  else (parseU64 (name.drop 5)).map (fun v => (v + 1) % 2 ^ 64)

/-- Modelled from the spec's words (for comparison with the code): a name
that begins with `"scfs."` followed by exactly ten decimal digits. -/
def specChunkName (name : List Char) : Bool :=
  decide (name.take 5 = "scfs.".toList)
    && decide ((name.drop 5).length = 10)
    && (name.drop 5).all isDigitB

/-! ## Mirror trees and the two populate walks (claims C5, C6, C9)

A mirror is a tree of directories, regular files, symlinks, and other
file types (which `convert_filetype` maps to `None`, so populate skips
them silently).  `Row` is one row of the `Files` table.  Both walks are
embedded with a fuel argument that strictly decreases on every call;
`none` means the fuel did not cover the tree (the Rust recursion always
terminates on the finite on-disk tree) or, for Cat, that a chunk-name
parse panicked. -/

inductive FNode where
  | file (name : List Char) (size : Nat)
  | dir (name : List Char) (children : List FNode)
  | symlink (name : List Char) (target : List Nat)
  | special (name : List Char)

def FNode.name : FNode → List Char
  | .file n _ => n
  | .dir n _ => n
  | .symlink n _ => n
  | .special n => n

structure Row where
  ino : Nat
  parent_ino : Nat
  file_name : List Char
  part : Nat
  vdir : Bool
  symlink : Bool
deriving DecidableEq, Repr

def configName : List Char := ".scfs_config".toList

/-- On-disk chunk file name `scfs.%010d` (src/splitfs.rs `populate`). -/
def chunkFileName (i : Nat) : List Char :=
  "scfs.".toList ++ (List.replicate (10 - (Nat.toDigits 10 i).length) '0' ++ Nat.toDigits 10 i)

mutual

/-- Embedding of `CatFS::populate`: skips unsupported file types and any
entry named `.scfs_config`; the root (parent `INO_OUTSIDE`) gets
`INO_ROOT`, every other kept entry takes the next counter value; a
regular file's `part` comes from `partOfName` (a parse failure panics,
modelled as `none`); directories recurse threading the counter. -/
def catPopulate : Nat → FNode → Nat → Nat → Option (List Row × Nat)
  | 0, _, _, _ => none
  | fuel + 1, t, parent, nx =>
    match t with
    | FNode.special _ => some ([], nx)
    | FNode.file name _ =>
      if name = configName then some ([], nx)
      else
        let ino := if parent = INO_OUTSIDE then INO_ROOT else nx
        let nx2 := if parent = INO_OUTSIDE then nx else nx + 1
        (partOfName name).bind fun p =>
          some ([⟨ino, parent, name, p, false, false⟩], nx2)
    | FNode.symlink name _ =>
      if name = configName then some ([], nx)
      else
        let ino := if parent = INO_OUTSIDE then INO_ROOT else nx
        let nx2 := if parent = INO_OUTSIDE then nx else nx + 1
        some ([⟨ino, parent, name, 0, false, true⟩], nx2)
    | FNode.dir name cs =>
      if name = configName then some ([], nx)
      else
        let ino := if parent = INO_OUTSIDE then INO_ROOT else nx
        let nx2 := if parent = INO_OUTSIDE then nx else nx + 1
        (catPopulateList fuel cs ino nx2).bind fun rn =>
          some (⟨ino, parent, name, 0, false, false⟩ :: rn.1, rn.2)

def catPopulateList : Nat → List FNode → Nat → Nat → Option (List Row × Nat)
  | 0, _, _, _ => none
  | _ + 1, [], _, nx => some ([], nx)
  | fuel + 1, t :: ts, parent, nx =>
    (catPopulate fuel t parent nx).bind fun rn =>
      (catPopulateList fuel ts parent rn.2).bind fun rn2 =>
        some (rn.1 ++ rn2.1, rn2.2)

end

mutual

/-- Embedding of `SplitFS::populate`: the root gets `INO_ROOT`, every
other entry gets `time::precise_time_ns()` — modelled by the oracle
`clock` applied to the number of previous calls `k`.  A regular file gets
a `vdir` row plus `max(1, ceil(size/B))` chunk rows with inodes
`ino + i + 1` and `part = i + 1`; directories recurse. -/
def splitPopulate (clock : Nat → Nat) (B : Nat) :
    Nat → FNode → Nat → Nat → Option (List Row × Nat)
  | 0, _, _, _ => none
  | fuel + 1, t, parent, k =>
    match t with
    | FNode.special _ => some ([], k)
    | FNode.file name size =>
      let ino := if parent = INO_OUTSIDE then INO_ROOT else clock k
      let k2 := if parent = INO_OUTSIDE then k else k + 1
      let chunkRows := (List.range (splitNumChunks size B)).map
        (fun i => (⟨ino + i + 1, ino, chunkFileName i, i + 1, false, false⟩ : Row))
      some ((⟨ino, parent, name, 0, true, false⟩ : Row) :: chunkRows, k2)
    | FNode.symlink name _ =>
      let ino := if parent = INO_OUTSIDE then INO_ROOT else clock k
      let k2 := if parent = INO_OUTSIDE then k else k + 1
      some ([(⟨ino, parent, name, 0, false, true⟩ : Row)], k2)
    | FNode.dir name cs =>
      let ino := if parent = INO_OUTSIDE then INO_ROOT else clock k
      let k2 := if parent = INO_OUTSIDE then k else k + 1
      (splitPopulateList clock B fuel cs ino k2).bind fun rn =>
        some ((⟨ino, parent, name, 0, false, false⟩ : Row) :: rn.1, rn.2)

def splitPopulateList (clock : Nat → Nat) (B : Nat) :
    Nat → List FNode → Nat → Nat → Option (List Row × Nat)
  | 0, _, _, _ => none
  | _ + 1, [], _, k => some ([], k)
  | fuel + 1, t :: ts, parent, k =>
    (splitPopulate clock B fuel t parent k).bind fun rn =>
      (splitPopulateList clock B fuel ts parent rn.2).bind fun rn2 =>
        some (rn.1 ++ rn2.1, rn2.2)

end

/-- Concrete mirror used to refute the claimed inode-counter assignment
in Split mode: a root directory with two empty files. -/
def cxTreeInode : FNode :=
  FNode.dir ("m".toList) [FNode.file ("a".toList) 0, FNode.file ("b".toList) 0]

/-- Concrete mirror used to refute the claimed chunk-name recognition in
Cat mode: a root directory with one regular file whose name does not
start with `scfs.` yet parses after byte 5. -/
def cxTreeChunkName : FNode :=
  FNode.dir ("m".toList) [FNode.file ("abcde7".toList) 3]

/-! ## readlink (claim C9, src/shared.rs `Shared::readlink`)

`read_link` returns the raw target; `to_str().unwrap()` panics unless the
bytes are valid UTF-8, and `as_bytes` then returns them unchanged.
`utf8Valid` is standard RFC 3629 validation (no continuation-byte leads,
no overlong forms, no surrogates, nothing above U+10FFFF), which is what
Rust's UTF-8 check accepts. -/

def utf8Cont (b : Nat) : Bool := 128 ≤ b && b < 192

def utf8Valid : List Nat → Bool
  | [] => true
  | b :: rest =>
    if b < 128 then utf8Valid rest
    else if b < 194 then false
    else if b < 224 then
      match rest with
      | c :: r => utf8Cont c && utf8Valid r
      | [] => false
    else if b < 240 then
      match rest with
      | c :: d :: r =>
        (if b = 224 then decide (160 ≤ c) && decide (c < 192)
         else if b = 237 then decide (128 ≤ c) && decide (c < 160)
         else utf8Cont c) && utf8Cont d && utf8Valid r
      | _ => false
    else if b < 245 then
      match rest with
      | c :: d :: e :: r =>
        (if b = 240 then decide (144 ≤ c) && decide (c < 192)
         else if b = 244 then decide (128 ≤ c) && decide (c < 144)
         else utf8Cont c) && utf8Cont d && utf8Cont e && utf8Valid r
      | _ => false
    else false

def readlinkBytes (target : List Nat) : Option (List Nat) :=
  if utf8Valid target then some target else none

/-! ## Split open arithmetic (claim C10, src/splitfs.rs `SplitFS::open`)

For any non-config inode found in the index, `open` computes
`start = (part - 1) * blocksize` and `end = start + blocksize` in u64
arithmetic, with no guard on `part = 0` rows; `u64PartMinusOne` is the
wrapping `part - 1`. -/

def u64PartMinusOne (part : Nat) : Nat := (part + (2 ^ 64 - 1)) % 2 ^ 64

def splitOpenHandle (part B : Nat) : Nat × Nat :=
  let start := u64PartMinusOne part * B % 2 ^ 64
  (start, (start + B) % 2 ^ 64)

/-! ## List helper lemmas -/

theorem scfs_drop_append_le {α : Type} (a b : List α) (k : Nat) (h : k ≤ a.length) :
    (a ++ b).drop k = a.drop k ++ b := by
  induction a generalizing k with
  | nil =>
    have : k = 0 := Nat.le_zero.mp h
    simp [this]
  | cons x xs ih =>
    cases k with
    | zero => simp
    | succ k' =>
      simp only [List.cons_append, List.drop_succ_cons]
      exact ih k' (Nat.le_of_succ_le_succ h)

theorem scfs_drop_append_add {α : Type} (a b : List α) (k : Nat) :
    (a ++ b).drop (a.length + k) = b.drop k := by
  induction a with
  | nil => simp
  | cons x xs ih =>
    simp only [List.cons_append, List.length_cons]
    have harr : xs.length + 1 + k = (xs.length + k) + 1 := by omega
    rw [harr, List.drop_succ_cons, ih]

theorem scfs_take_append_add {α : Type} (a b : List α) (k : Nat) :
    (a ++ b).take (a.length + k) = a ++ b.take k := by
  induction a with
  | nil => simp
  | cons x xs ih =>
    simp only [List.cons_append, List.length_cons]
    have harr : xs.length + 1 + k = (xs.length + k) + 1 := by omega
    rw [harr, List.take_succ_cons, ih]

theorem scfs_flatten_take_sum {α : Type} (l : List (List α)) (m : Nat) :
    (l.take m).flatten = l.flatten.take (((l.map List.length).take m).sum) := by
  induction l generalizing m with
  | nil => simp
  | cons c cs ih =>
    cases m with
    | zero => simp
    | succ m' =>
      simp only [List.take_succ_cons, List.flatten_cons, List.map_cons, List.sum_cons]
      rw [scfs_take_append_add, ih]

theorem scfs_length_flatten {α : Type} (l : List (List α)) :
    l.flatten.length = (l.map List.length).sum := by
  induction l with
  | nil => simp
  | cons c cs ih => simp [ih]

/-! ## Facts about well-formed chunk lists -/

theorem chunksWF_tail {B : Nat} {c : List Nat} {cs : List (List Nat)}
    (h : chunksWF B (c :: cs) = true) : chunksWF B cs = true := by
  cases cs with
  | nil => rfl
  | cons c2 cs2 =>
    simp only [chunksWF, Bool.and_eq_true] at h
    exact h.2

theorem chunksWF_head_eq {B : Nat} {c : List Nat} {cs : List (List Nat)}
    (hne : cs ≠ []) (h : chunksWF B (c :: cs) = true) : c.length = B := by
  cases cs with
  | nil => exact absurd rfl hne
  | cons c2 cs2 =>
    simp only [chunksWF, Bool.and_eq_true, beq_iff_eq] at h
    exact h.1

theorem chunksWF_single {B : Nat} {c : List Nat} (h : chunksWF B [c] = true) :
    c.length ≤ B := by
  simpa [chunksWF] using h

theorem chunksWF_drop (B : Nat) (l : List (List Nat)) (p : Nat)
    (h : chunksWF B l = true) : chunksWF B (l.drop p) = true := by
  induction p generalizing l with
  | zero => simpa using h
  | succ p' ih =>
    cases l with
    | nil => rfl
    | cons c cs =>
      rw [List.drop_succ_cons]
      exact ih cs (chunksWF_tail h)

theorem chunksWF_total_le (B : Nat) (l : List (List Nat))
    (h : chunksWF B l = true) : catTotal l ≤ l.length * B := by
  induction l with
  | nil => simp [catTotal]
  | cons c cs ih =>
    cases cs with
    | nil =>
      have := chunksWF_single h
      simpa [catTotal] using this
    | cons c2 cs2 =>
      have hc : c.length = B := chunksWF_head_eq (by simp) h
      have ht := ih (chunksWF_tail h)
      have hexp : (c :: c2 :: cs2).length * B = (c2 :: cs2).length * B + B := by
        simp [Nat.succ_mul]
      simp only [catTotal, List.map_cons, List.sum_cons] at ht ⊢
      omega

theorem chunksWF_flatten_drop_mul (B : Nat) (l : List (List Nat))
    (h : chunksWF B l = true) :
    ∀ p, l.flatten.drop (p * B) = (l.drop p).flatten := by
  intro p
  induction p generalizing l with
  | zero => simp
  | succ p' ih =>
    cases l with
    | nil => simp
    | cons c cs =>
      cases cs with
      | nil =>
        have hc : c.length ≤ B := chunksWF_single h
        have hB : B ≤ (p' + 1) * B := by
          have : (p' + 1) * B = p' * B + B := by rw [Nat.succ_mul]
          omega
        have hnil : c.drop ((p' + 1) * B) = [] :=
          List.drop_eq_nil_of_le (by omega)
        simp [hnil]
      | cons c2 cs2 =>
        have hc : c.length = B := chunksWF_head_eq (by simp) h
        have harr : (p' + 1) * B = c.length + p' * B := by
          rw [hc, Nat.succ_mul]; omega
        rw [List.flatten_cons, harr, scfs_drop_append_add,
          ih (c2 :: cs2) (chunksWF_tail h), List.drop_succ_cons]

theorem chunksWF_take_sum (B : Nat) (l : List (List Nat))
    (h : chunksWF B l = true) :
    ∀ m, m < l.length → ((l.map List.length).take m).sum = m * B := by
  intro m
  induction m generalizing l with
  | zero => simp
  | succ m' ih =>
    intro hm
    cases l with
    | nil => simp at hm
    | cons c cs =>
      have hcs : cs ≠ [] := by
        intro hnil
        rw [hnil] at hm
        simp at hm
      have hc : c.length = B := chunksWF_head_eq hcs h
      have hrec := ih cs (chunksWF_tail h) (by simpa using hm)
      simp only [List.map_cons, List.take_succ_cons, List.sum_cons, hrec, hc, Nat.succ_mul]
      omega

/-! ## The central read lemma: `CatFS::read` returns the requested slice -/

theorem catRead_slice (B : Nat) (chunks : List (List Nat)) (hB : 1 ≤ B)
    (hwf : chunksWF B chunks = true) (offset size : Nat) :
    catRead B chunks offset size
      = ((chunks.flatten).drop offset).take (min (offset + size) (catTotal chunks) - offset) := by
  have hjoin : chunks.flatten.length = catTotal chunks := scfs_length_flatten chunks
  simp only [catRead]
  set T := catTotal chunks with hT
  by_cases hoT : offset ≤ T
  · by_cases hsz : min size (T - offset) = 0
    · have h0 : min size (T - min offset T) = 0 := by omega
      rw [if_pos h0]
      have hamt : min (offset + size) T - offset = 0 := by omega
      rw [hamt]
      simp
    · have h0 : ¬ min size (T - min offset T) = 0 := by omega
      rw [if_neg h0]
      have ho' : min offset T = offset := by omega
      rw [ho']
      set s' := min size (T - offset) with hs'
      have hs1 : 1 ≤ s' := Nat.pos_of_ne_zero hsz
      have hosT : offset + s' ≤ T := by omega
      set ps := offset / B with hps
      set pe := (offset + s' - 1) / B with hpe
      set r := offset % B with hr
      have hBpos : 0 < B := hB
      have hdm : ps * B + r = offset := by
        rw [hps, hr]; exact Nat.div_add_mod' offset B
      have hrB : r < B := by rw [hr]; exact Nat.mod_lt _ hBpos
      have hdm2 : pe * B + (offset + s' - 1) % B = offset + s' - 1 := by
        rw [hpe]; exact Nat.div_add_mod' (offset + s' - 1) B
      have hx2 : (offset + s' - 1) % B < B := Nat.mod_lt _ hBpos
      have hpspe : ps ≤ pe := by
        rw [hps, hpe]; exact Nat.div_le_div_right (by omega)
      have hmulpspe : ps * B ≤ pe * B := Nat.mul_le_mul_right B hpspe
      have htot : T ≤ chunks.length * B := by
        rw [hT]; exact chunksWF_total_le B chunks hwf
      have hpen : pe < chunks.length := by
        rw [hpe, Nat.div_lt_iff_lt_mul hBpos]
        omega
      have hpsn : ps < chunks.length := Nat.lt_of_le_of_lt hpspe hpen
      set dropped := chunks.drop ps with hdropped
      have hdlen : dropped.length = chunks.length - ps := by
        rw [hdropped]; exact List.length_drop ps chunks
      have hdne : dropped ≠ [] := by
        intro hnil
        rw [hnil] at hdlen
        simp at hdlen
        omega
      obtain ⟨h0l, t0, hht⟩ := List.exists_cons_of_ne_nil hdne
      have hdwf : chunksWF B dropped = true := by
        rw [hdropped]; exact chunksWF_drop B chunks ps hwf
      have hdflat : dropped.flatten = chunks.flatten.drop (ps * B) := by
        rw [hdropped]; exact (chunksWF_flatten_drop_mul B chunks hwf ps).symm
      have hdflen : dropped.flatten.length = T - ps * B := by
        rw [hdflat, List.length_drop, hjoin]
      have hrh : r < h0l.length := by
        rcases t0 with _ | ⟨c2, cs2⟩
        · have h1 : h0l.length = T - ps * B := by
            rw [hht] at hdflen
            simpa using hdflen
          omega
        · have hc : h0l.length = B := chunksWF_head_eq (by simp) (hht ▸ hdwf)
          omega
      have hfiles : dropped.take (pe - ps + 1) = h0l :: t0.take (pe - ps) := by
        rw [hht, List.take_succ_cons]
      have hSsum : r + s' ≤ ((dropped.map List.length).take (pe - ps + 1)).sum := by
        by_cases hmlen : pe - ps + 1 < dropped.length
        · rw [chunksWF_take_sum B dropped hdwf _ hmlen]
          have h1 : (pe - ps + 1) * B = (pe - ps) * B + 1 * B := Nat.add_mul (pe - ps) 1 B
          have h2 : (pe - ps) * B = pe * B - ps * B := Nat.sub_mul pe ps B
          omega
        · have htk : (dropped.map List.length).take (pe - ps + 1) = dropped.map List.length := by
            apply List.take_of_length_le
            simp only [List.length_map]
            omega
          rw [htk, ← scfs_length_flatten, hdflen]
          omega
      rw [hfiles]
      simp only [catAssemble]
      have hamt : min (offset + size) T - offset = s' := by omega
      rw [hamt]
      rw [← scfs_drop_append_le h0l ((t0.take (pe - ps)).flatten) r (Nat.le_of_lt hrh)]
      rw [← List.flatten_cons, ← hfiles, scfs_flatten_take_sum, List.drop_take, List.take_take]
      have hmin : min s' (((dropped.map List.length).take (pe - ps + 1)).sum - r) = s' := by
        omega
      rw [hmin, hdflat, List.drop_drop, hdm]
  · have h0 : min size (T - min offset T) = 0 := by omega
    rw [if_pos h0]
    have hdrop : chunks.flatten.drop offset = [] :=
      List.drop_eq_nil_of_le (by omega)
    rw [hdrop]
    simp

/-! ## SplitFS chunk facts -/

theorem splitChunkData_eq (content : List Nat) (B i : Nat) :
    splitChunkData content B i = (content.drop (i * B)).take B := by
  simp [splitChunkData, splitRead]

theorem chunksWF_range' (B : Nat) (f : Nat → List Nat) :
    ∀ (n s : Nat), (∀ i, s ≤ i → i + 1 < s + n → (f i).length = B) →
      (∀ i, s ≤ i → i + 1 = s + n → (f i).length ≤ B) →
      chunksWF B ((List.range' s n).map f) = true := by
  intro n
  induction n with
  | zero => intro s _ _; rfl
  | succ n' ih =>
    intro s hmid hlast
    cases n' with
    | zero =>
      have h1 : (f s).length ≤ B := hlast s (Nat.le_refl s) (by omega)
      simpa [List.range', chunksWF] using h1
    | succ n'' =>
      have hr : List.range' s (n'' + 1 + 1) = s :: List.range' (s + 1) (n'' + 1) := by
        simp [List.range']
      have hhead : (f s).length = B := hmid s (Nat.le_refl s) (by omega)
      have htail : chunksWF B ((List.range' (s + 1) (n'' + 1)).map f) = true := by
        apply ih (s + 1)
        · intro i hi1 hi2; exact hmid i (by omega) (by omega)
        · intro i hi1 hi2; exact hlast i (by omega) (by omega)
      have hr2 : List.range' (s + 1) (n'' + 1) = (s + 1) :: List.range' (s + 2) n'' := by
        simp [List.range']
      rw [hr, List.map_cons, hr2, List.map_cons]
      rw [hr2, List.map_cons] at htail
      simp only [chunksWF, Bool.and_eq_true, beq_iff_eq]
      exact ⟨hhead, htail⟩

theorem splitChunks_wf (content : List Nat) (B : Nat) (hB : 1 ≤ B) :
    chunksWF B (splitChunks content B) = true := by
  have hfun : splitChunkData content B = fun i => (content.drop (i * B)).take B :=
    funext (splitChunkData_eq content B)
  rw [splitChunks, hfun, List.range_eq_range']
  apply chunksWF_range' B _ (splitNumChunks content.length B) 0
  · intro i _ h2
    simp only [List.length_take, List.length_drop]
    have hq : i + 1 < (content.length + B - 1) / B := by
      have h3 : i + 1 < max 1 ((content.length + B - 1) / B) := by
        simpa [splitNumChunks] using h2
      rcases lt_max_iff.mp h3 with h | h
      · omega
      · exact h
    have h3 : (i + 2) * B ≤ content.length + B - 1 :=
      (Nat.le_div_iff_mul_le (by omega)).mp (by omega)
    have h4 : (i + 2) * B = i * B + 2 * B := Nat.add_mul i 2 B
    omega
  · intro i _ _
    simp only [List.length_take]
    omega

theorem scfs_chunks_flatten_aux (B : Nat) :
    ∀ (n : Nat) (l : List Nat), l.length ≤ n * B →
      ((List.range n).map (fun i => (l.drop (i * B)).take B)).flatten = l := by
  intro n
  induction n with
  | zero =>
    intro l hl
    have hnil : l = [] := List.eq_nil_of_length_eq_zero (by omega)
    simp [hnil]
  | succ n' ih =>
    intro l hl
    rw [List.range_succ_eq_map]
    simp only [List.map_cons, List.map_map, List.flatten_cons]
    have hcomp : ((fun i => (l.drop (i * B)).take B) ∘ Nat.succ)
        = fun i => ((l.drop B).drop (i * B)).take B := by
      funext i
      simp only [Function.comp]
      rw [List.drop_drop, Nat.succ_mul, Nat.add_comm (i * B) B]
    rw [hcomp]
    have hlen : (l.drop B).length ≤ n' * B := by
      simp only [List.length_drop]
      have := Nat.add_mul n' 1 B
      omega
    rw [ih (l.drop B) hlen]
    simp

theorem splitNumChunks_mul_ge (s B : Nat) (hB : 1 ≤ B) : s ≤ splitNumChunks s B * B := by
  simp only [splitNumChunks]
  set q := (s + B - 1) / B with hq
  have hdm : q * B + (s + B - 1) % B = s + B - 1 := by
    rw [hq]; exact Nat.div_add_mod' _ B
  have hmod : (s + B - 1) % B < B := Nat.mod_lt _ (by omega)
  have h1 : q * B ≤ max 1 q * B := Nat.mul_le_mul_right B (le_max_right 1 q)
  omega

theorem splitChunks_flatten (content : List Nat) (B : Nat) (hB : 1 ≤ B) :
    (splitChunks content B).flatten = content := by
  have hfun : splitChunkData content B = fun i => (content.drop (i * B)).take B :=
    funext (splitChunkData_eq content B)
  rw [splitChunks, hfun]
  exact scfs_chunks_flatten_aux B _ content (splitNumChunks_mul_ge content.length B hB)

/-! ## Claims C1, C2 -/

/-- The round-trip identity as the spec intends it: with the exact
ceiling chunk count, splitting a file of arbitrary byte content with
blocksize `B ≥ 1` (each chunk read through SplitFS's read engine),
copying that chunk list into a fresh Cat mirror, and reading the whole
file back through CatFS's read engine returns exactly the original byte
content.  The on-disk transport (chunk file names `scfs.%010d` and the
copied `.scfs_config` carrying the same blocksize) is modelled by the
chunk list arriving at CatFS in part order together with the same `B`.
The program's f64 chunk count deviates from `splitNumChunks` above
`2^53` and breaks this identity there — see `scfs_round_trip_f64_bug`,
the C1 theorem. -/
theorem scfs_round_trip_identity (content : List Nat) (B : Nat) (hB : 1 ≤ B) :
    catRead B (splitChunks content B) 0 content.length = content := by
  have hwf := splitChunks_wf content B hB
  have hflat := splitChunks_flatten content B hB
  have htot : catTotal (splitChunks content B) = content.length := by
    have h1 : (splitChunks content B).flatten.length = catTotal (splitChunks content B) :=
      scfs_length_flatten _
    rw [← h1, hflat]
  rw [catRead_slice B _ hB hwf 0 content.length, hflat, htot]
  simp

/-- Concrete instance of the intended round trip: the file `[5, 6, 7]`
split with blocksize 2 and read back through CatFS yields `[5, 6, 7]`. -/
theorem scfs_round_trip_identity_witness :
    catRead 2 (splitChunks [5, 6, 7] 2) 0 3 = [5, 6, 7] :=
  scfs_round_trip_identity [5, 6, 7] 2 (by decide)

/-- C2: Cat read offset/length correctness.  For every well-formed open
Cat file (chunks as produced by SplitFS: all but the last of size exactly
`B`, the last at most `B`) and every request `(offset, size)`, the bytes
returned by `CatFS::read` are `concat(chunks)[offset : min(offset + size,
total)]`.  The chunk slice the code consults is `[offset / B,
(offset + size - 1) / B]` on the clamped values, the first chunk is
entered at `offset mod B`, the others at 0, and the result is truncated
to the clamped size — all of which is the definition `catRead`. -/
theorem catfs_read_offset_length (B : Nat) (chunks : List (List Nat)) (hB : 1 ≤ B)
    (hwf : chunksWF B chunks = true) (offset size : Nat) :
    catRead B chunks offset size
      = ((chunks.flatten).drop offset).take (min (offset + size) (catTotal chunks) - offset) :=
  catRead_slice B chunks hB hwf offset size

/-- C2 witness: the chunk list `[[1, 2], [3]]` with `B = 2`, read at
offset 1 with size 5, returns `[2, 3]`. -/
theorem catfs_read_offset_length_witness :
    chunksWF 2 [[1, 2], [3]] = true ∧ catRead 2 [[1, 2], [3]] 1 5 = [2, 3] :=
  ⟨by decide,
    (catfs_read_offset_length 2 [[1, 2], [3]] (by decide) (by decide) 1 5).trans (by decide)⟩

/-! ## Claim C3: chunk shape -/

theorem scfs_range'_map_succ (n : Nat) :
    ∀ s, (List.range' s n).map (· + 1) = List.range' (s + 1) n := by
  induction n with
  | zero => intro s; rfl
  | succ n' ih => intro s; simp [List.range', ih]

/-- The chunk shape the spec intends, for the exact-ceiling chunk
count: for a file of size `s` and blocksize `B ≥ 1`, exactly
`max(1, ceil(s / B))` chunk rows whose `part` values are `1, 2, ..., N`
in insertion order (so an empty file still gets exactly one chunk row
with `part = 1`, by the third conjunct and the first); the attribute
resolver gives every chunk except the last size exactly `B`, and the
last chunk size `s mod B` (or `B` when `s mod B = 0` and `s > 0`, and
`0` when `s = 0`).  The final conjunct checks that `splitNumChunks`
really is the ceiling of `s / B`.  The program computes this count
through `f64::ceil` and deviates from it above `2^53` — see
`splitfs_chunk_shape_f64_bug`, the C3 theorem. -/
theorem splitfs_chunk_shape (s B : Nat) (hB : 1 ≤ B) :
    splitParts s B = List.range' 1 (splitNumChunks s B)
    ∧ (s = 0 → splitNumChunks s B = 1 ∧ splitChunkSize s B 1 = 0)
    ∧ (∀ part, 1 ≤ part → part < splitNumChunks s B → splitChunkSize s B part = B)
    ∧ (0 < s → s % B = 0 → splitChunkSize s B (splitNumChunks s B) = B)
    ∧ (0 < s → 0 < s % B → splitChunkSize s B (splitNumChunks s B) = s % B)
    ∧ (0 < s → (splitNumChunks s B - 1) * B < s ∧ s ≤ splitNumChunks s B * B) := by
  refine ⟨?_, ?_, ?_, ?_, ?_, ?_⟩
  · rw [splitParts, List.range_eq_range', scfs_range'_map_succ]
  · intro hs
    subst hs
    constructor
    · simp [splitNumChunks, Nat.div_eq_of_lt (by omega : B - 1 < B)]
    · simp [splitChunkSize]
  · intro part h1 h2
    have hq : part < (s + B - 1) / B := by
      have h3 : part < max 1 ((s + B - 1) / B) := by
        simpa [splitNumChunks] using h2
      rcases lt_max_iff.mp h3 with h | h
      · omega
      · exact h
    have h3 : (part + 1) * B ≤ s + B - 1 :=
      (Nat.le_div_iff_mul_le (by omega)).mp (by omega)
    have h4 : (part + 1) * B = part * B + 1 * B := Nat.add_mul part 1 B
    have h5 : (part - 1) * B = part * B - 1 * B := Nat.sub_mul part 1 B
    have h6 : 1 * B ≤ part * B := Nat.mul_le_mul_right B h1
    simp only [splitChunkSize]
    omega
  · intro hs hmod
    obtain ⟨t, ht⟩ := Nat.dvd_of_mod_eq_zero hmod
    have ht1 : 1 ≤ t := by
      cases t with
      | zero => simp at ht; omega
      | succ t' => omega
    have hnum : splitNumChunks s B = t := by
      have hc0 : B * t = t * B := Nat.mul_comm B t
      have hsucc : (t + 1) * B = t * B + 1 * B := Nat.add_mul t 1 B
      have hdiv : (s + B - 1) / B = t :=
        Nat.div_eq_of_lt_le (by omega) (by omega)
      simp only [splitNumChunks, hdiv]
      omega
    rw [hnum]
    have h5 : (t - 1) * B = t * B - 1 * B := Nat.sub_mul t 1 B
    have hc : B * t = t * B := Nat.mul_comm B t
    have h6 : 1 * B ≤ t * B := Nat.mul_le_mul_right B ht1
    have hx : s - (t - 1) * B = B := by omega
    simp only [splitChunkSize, hx, Nat.min_self]
  · intro hs hr
    have hdm : s / B * B + s % B = s := Nat.div_add_mod' s B
    have hrB : s % B < B := Nat.mod_lt _ (by omega)
    have hnum : splitNumChunks s B = s / B + 1 := by
      have hmul1 : (s / B + 1) * B = s / B * B + 1 * B := Nat.add_mul (s / B) 1 B
      have hmul2 : (s / B + 1 + 1) * B = (s / B + 1) * B + 1 * B :=
        Nat.add_mul (s / B + 1) 1 B
      have hdiv : (s + B - 1) / B = s / B + 1 :=
        Nat.div_eq_of_lt_le (by omega) (by omega)
      simp only [splitNumChunks, hdiv]
      exact max_eq_right (Nat.le_add_left 1 (s / B))
    rw [hnum]
    have hxx : s / B + 1 - 1 = s / B := by
      generalize s / B = q
      omega
    have hx : s - (s / B + 1 - 1) * B = s % B := by rw [hxx]; omega
    simp only [splitChunkSize, hx]
    omega
  · intro hs
    refine ⟨?_, splitNumChunks_mul_ge s B hB⟩
    rcases Nat.eq_zero_or_pos ((s + B - 1) / B) with hq | hq
    · have : splitNumChunks s B = 1 := by simp [splitNumChunks, hq]
      rw [this]
      simpa using hs
    · have hnum : splitNumChunks s B = (s + B - 1) / B := by
        simp only [splitNumChunks]
        omega
      rw [hnum]
      have h3 : (s + B - 1) / B * B ≤ s + B - 1 :=
        (Nat.le_div_iff_mul_le (by omega : 0 < B)).mp (Nat.le_refl _)
      have h5 : ((s + B - 1) / B - 1) * B = (s + B - 1) / B * B - 1 * B :=
        Nat.sub_mul ((s + B - 1) / B) 1 B
      omega

/-- Concrete instance of the intended chunk shape: `s = 5`, `B = 2`
gives three chunk rows with parts `[1, 2, 3]` and a last chunk of size
`5 mod 2 = 1`. -/
theorem splitfs_chunk_shape_witness :
    splitChunkSize 5 2 (splitNumChunks 5 2) = 5 % 2
    ∧ splitParts 5 2 = List.range' 1 (splitNumChunks 5 2) :=
  ⟨(splitfs_chunk_shape 5 2 (by decide)).2.2.2.2.1 (by decide) (by decide),
    (splitfs_chunk_shape 5 2 (by decide)).1⟩

/-! ## Claim C4: read-engine clamping (corrected) -/

/-- C4 counterexample: mirror file of size 1, blocksize 2, chunk 1, so
the Split handle spans `(0, 2)` while the Attribute Resolver's logical
chunk size is 1.  For the request `(offset 0, size 2)`,
`SplitFS::read` clamps the size against the handle span (giving 2), not
against the resolver-derived logical size (which would give 1) — so the
claim that both modes clamp to the resolver-derived logical size is
false. -/
theorem read_clamp_not_from_resolver_cx :
    (splitReadClamp 0 2 0 2).2 ≠ specClampSize (splitChunkSize 1 2 1) 0 2 := by
  decide

/-- C4 amended: CatFS clamps the effective size against the logical size
re-derived from the Attribute Resolver and replies with empty data at
once when it is zero (first conjunct); SplitFS clamps offset and size
against the handle's span `end - start` with no early return, but the
bytes it replies always equal the spec's resolver-clamped slice of the
chunk anyway, because the read truncates at the end of the backing file
(second conjunct). -/
theorem read_clamp_amended :
    (∀ B chunks offset size,
        min size (catTotal chunks - min offset (catTotal chunks)) = 0 →
        catRead B chunks offset size = [])
    ∧ (∀ (content : List Nat) (B start offset size : Nat),
        splitRead content start (start + B) offset size
          = (((content.drop start).take B).drop offset).take
              (specClampSize ((content.drop start).take B).length offset size)) := by
  constructor
  · intro B chunks offset size h
    simp only [catRead]
    rw [if_pos h]
  · intro content B start offset size
    have hclen : ((content.drop start).take B).length = min B (content.length - start) := by
      simp [List.length_take, List.length_drop]
    by_cases hoff : offset ≤ B
    · simp only [splitRead, specClampSize]
      have h1 : start + B - start = B := by omega
      rw [h1, List.drop_take, List.drop_drop, List.take_take, min_eq_left hoff]
      apply List.take_eq_take.mpr
      rw [hclen]
      simp only [List.length_drop]
      omega
    · simp only [splitRead, specClampSize]
      have h1 : start + B - start = B := by omega
      have h2 : min offset B = B := by omega
      rw [h1, h2]
      have h3 : min size (B - B) = 0 := by omega
      rw [h3, List.take_zero]
      have h4 : ((content.drop start).take B).drop offset = [] := by
        apply List.drop_eq_nil_of_le
        omega
      rw [h4, List.take_nil]

/-- C4 amended witness: reading past end of file in Cat replies empty. -/
theorem read_clamp_amended_witness : catRead 1 [[1]] 5 0 = [] :=
  read_clamp_amended.1 1 [[1]] 5 0 (by decide)

/-! ## Claim C7: directory cookie protocol -/

theorem withCookies_drop {α : Type} (l : List α) :
    ∀ s d, (withCookies s l).drop d = withCookies (s + d) (l.drop d) := by
  induction l with
  | nil => intro s d; simp [withCookies]
  | cons c cs ih =>
    intro s d
    cases d with
    | zero => simp
    | succ d' =>
      simp only [withCookies, List.drop_succ_cons]
      rw [ih (s + 1) d']
      congr 1
      omega

theorem withCookies_get {α : Type} (l : List α) :
    ∀ s k, (withCookies s l).get? k = (l.get? k).map (fun c => (s + k, DirEnt.child c)) := by
  induction l with
  | nil => intro s k; simp [withCookies]
  | cons c cs ih =>
    intro s k
    cases k with
    | zero => simp [withCookies]
    | succ k' =>
      simp only [withCookies, List.get?_cons_succ]
      rw [ih (s + 1) k']
      have harr : s + 1 + k' = s + (k' + 1) := by omega
      rw [harr]

theorem synthEntries_length {α : Type} (hasConfig : Bool) (d p offset : Nat) :
    (synthEntries hasConfig d p offset : List (Nat × DirEnt α)).length
      = synthCount hasConfig offset := by
  simp only [synthEntries, synthCount, List.length_append]
  split_ifs <;> simp

/-- C7: directory cookie protocol, both modes (`hasConfig` is true
exactly for the Split root; `CatFS::readdir` and non-root
`SplitFS::readdir` are the `hasConfig = false` instance).  First
conjunct: replaying `readdir` from any offset yields exactly the suffix
of the full (offset 0) listing starting at that position, so replaying
from every returned cookie continues the listing and offset 0 gives the
full listing.  Second conjunct: the database child at position `k` of
`children(ino, max(0, offset - H))` is emitted with cookie
`offset + Δ + k + 1`. -/
theorem readdir_cookie_protocol {α : Type} (hasConfig : Bool) (dirIno parentIno : Nat)
    (children : List α) (offset : Nat) :
    readdirEntries hasConfig dirIno parentIno children offset
      = (readdirEntries hasConfig dirIno parentIno children 0).drop offset
    ∧ ∀ k, (readdirEntries hasConfig dirIno parentIno children offset).get?
          (synthCount hasConfig offset + k)
        = ((children.drop (offset - synthH hasConfig)).get? k).map
            (fun c => (offset + synthCount hasConfig offset + k + 1, DirEnt.child c)) := by
  constructor
  · rcases offset with _ | _ | _ | n
    · simp
    · cases hasConfig <;>
        simp [readdirEntries, synthEntries, synthH, INO_OUTSIDE]
    · cases hasConfig <;>
        simp [readdirEntries, synthEntries, synthH, INO_OUTSIDE, withCookies_drop]
    · have hsyn : (synthEntries hasConfig dirIno parentIno (n + 3) : List (Nat × DirEnt α))
          = [] := by
        simp only [synthEntries]
        rw [if_neg (by omega), if_neg (by omega),
          if_neg (by rintro ⟨h3, _⟩; omega)]
        rfl
      cases hasConfig
      · simp only [readdirEntries, hsyn, List.length_nil, List.nil_append, synthH]
        have hfull : (synthEntries false dirIno parentIno 0 : List (Nat × DirEnt α))
            = [(1, DirEnt.dot dirIno),
               (2, DirEnt.dotdot (if parentIno = INO_OUTSIDE then dirIno else parentIno))] := by
          simp [synthEntries]
        rw [hfull]
        have hidx : n + 3
            = ([(1, DirEnt.dot dirIno),
                (2, DirEnt.dotdot (if parentIno = INO_OUTSIDE then dirIno else parentIno))]
                  : List (Nat × DirEnt α)).length + (n + 1) := by
          simp
          omega
        rw [hidx, scfs_drop_append_add, withCookies_drop]
        simp
        congr 1
        omega
      · simp only [readdirEntries, hsyn, List.length_nil, List.nil_append, synthH]
        have hfull : (synthEntries true dirIno parentIno 0 : List (Nat × DirEnt α))
            = [(1, DirEnt.dot dirIno),
               (2, DirEnt.dotdot (if parentIno = INO_OUTSIDE then dirIno else parentIno)),
               (3, DirEnt.conf)] := by
          simp [synthEntries]
        rw [hfull]
        have hidx : n + 3
            = ([(1, DirEnt.dot dirIno),
                (2, DirEnt.dotdot (if parentIno = INO_OUTSIDE then dirIno else parentIno)),
                (3, DirEnt.conf)] : List (Nat × DirEnt α)).length + n := by
          simp
          omega
        rw [hidx, scfs_drop_append_add, withCookies_drop]
        simp
        congr 1
        omega
  · intro k
    simp only [readdirEntries]
    have hlen : (synthEntries hasConfig dirIno parentIno offset
        : List (Nat × DirEnt α)).length = synthCount hasConfig offset :=
      synthEntries_length hasConfig dirIno parentIno offset
    rw [List.get?_append_right (by rw [hlen]; omega)]
    rw [hlen]
    have hidx : synthCount hasConfig offset + k - synthCount hasConfig offset = k := by
      omega
    rw [hidx, withCookies_get]
    have harr : offset + synthCount hasConfig offset + 1 + k
        = offset + synthCount hasConfig offset + k + 1 := by omega
    rw [harr]

/-! ## Claim C8: Cat mount-time config errors -/

/-- C8: constructing a CatFS mount fails with exactly
"SCFS config file not found" when the config file cannot be read, with
exactly "SCFS config file contains invalid JSON" when its content does
not parse as the `Config` record, and proceeds with the parsed config
otherwise (`parse` stands for the external `serde_json` parser). -/
theorem catfs_config_errors :
    (∀ parse, readCatConfig none parse = Except.error "SCFS config file not found")
    ∧ (∀ parse s, parse s = none →
        readCatConfig (some s) parse = Except.error "SCFS config file contains invalid JSON")
    ∧ (∀ parse s c, parse s = some c → readCatConfig (some s) parse = Except.ok c) := by
  refine ⟨fun parse => rfl, ?_, ?_⟩
  · intro parse s h
    simp [readCatConfig, h]
  · intro parse s c h
    simp [readCatConfig, h]

/-- C8 witness: a parser that rejects everything produces the invalid
JSON error on a present config file. -/
theorem catfs_config_errors_witness :
    readCatConfig (some "x") (fun _ => none)
      = Except.error "SCFS config file contains invalid JSON" :=
  catfs_config_errors.2.1 (fun _ => none) "x" rfl

/-! ## Claim C10: Split open handle arithmetic -/

/-- C10: `SplitFS::open` computes `chunk_start = (part - 1) * blocksize`
and `chunk_end = chunk_start + blocksize` in u64 arithmetic; for rows
with `part ≥ 1` (and no u64 overflow of the products) the wrapping
arithmetic agrees with the exact values, and since `open` applies the
same formula to every row found in the index — it has no guard that
rejects `part = 0` rows (directories, vdir file rows, symlinks) — the
subtraction `0 - 1` wraps to `2^64 - 1` for such rows. -/
theorem splitfs_open_arithmetic :
    (∀ part, 1 ≤ part → part < 2 ^ 64 → u64PartMinusOne part = part - 1)
    ∧ u64PartMinusOne 0 = 2 ^ 64 - 1
    ∧ (∀ part B, 1 ≤ part → part < 2 ^ 64 → (part - 1) * B + B < 2 ^ 64 →
        splitOpenHandle part B = ((part - 1) * B, (part - 1) * B + B)) := by
  have hminus : ∀ part, 1 ≤ part → part < 2 ^ 64 → u64PartMinusOne part = part - 1 := by
    intro part h1 h2
    have he : part + (2 ^ 64 - 1) = (part - 1) + 2 ^ 64 := by omega
    rw [u64PartMinusOne, he, Nat.add_mod_right]
    exact Nat.mod_eq_of_lt (by omega)
  refine ⟨hminus, by decide, ?_⟩
  intro part B h1 h2 h3
  rw [splitOpenHandle, hminus part h1 h2]
  have hs : (part - 1) * B % 2 ^ 64 = (part - 1) * B := Nat.mod_eq_of_lt (by omega)
  rw [hs]
  rw [Nat.mod_eq_of_lt h3]

/-- C10 witness: `part = 3`, `B = 4` gives the handle `(8, 12)`, and
`part = 0` wraps. -/
theorem splitfs_open_arithmetic_witness :
    splitOpenHandle 3 4 = ((3 - 1) * 4, (3 - 1) * 4 + 4)
    ∧ u64PartMinusOne 0 = 2 ^ 64 - 1 :=
  ⟨splitfs_open_arithmetic.2.2 3 4 (by decide) (by decide) (by decide),
    splitfs_open_arithmetic.2.1⟩

/-! ## Claim C5: Cat chunk recognition (corrected) -/

theorem digitsVal_aux (cs : List Char) : ∀ a, cs.all isDigitB = true →
    cs.foldl (fun a c => a * 10 + (c.toNat - 48)) a < (a + 1) * 10 ^ cs.length := by
  induction cs with
  | nil => intro a _; simp
  | cons c cs ih =>
    intro a hall
    simp only [List.all_cons, Bool.and_eq_true] at hall
    obtain ⟨hc, hrest⟩ := hall
    have hd : c.toNat - 48 ≤ 9 := by
      simp only [isDigitB, Bool.and_eq_true, decide_eq_true_eq] at hc
      omega
    simp only [List.foldl_cons, List.length_cons]
    have h1 := ih (a * 10 + (c.toNat - 48)) hrest
    have h2 : (a * 10 + (c.toNat - 48) + 1) * 10 ^ cs.length
        ≤ (a + 1) * 10 ^ (cs.length + 1) := by
      have hp : (10 : Nat) ^ (cs.length + 1) = 10 ^ cs.length * 10 := pow_succ 10 cs.length
      have hmul : (a + 1) * (10 ^ cs.length * 10) = (a + 1) * 10 * 10 ^ cs.length := by ring
      rw [hp, hmul]
      apply Nat.mul_le_mul_right
      omega
    omega

theorem digitsVal_lt_pow (cs : List Char) (h : cs.all isDigitB = true) :
    digitsVal cs < 10 ^ cs.length := by
  have h1 := digitsVal_aux cs 0 h
  simpa [digitsVal] using h1

/-- C5 counterexample: the regular file `abcde7` does not begin with
`scfs.` followed by ten decimal digits, yet Cat populate records it as a
chunk with `part = 8` (the code parses `name[5..]` without ever checking
the `scfs.` prefix or the digit count), so the claimed "if and only if"
is false. -/
theorem cat_chunk_recognition_cx :
    partOfName ("abcde7".toList) = some 8
    ∧ specChunkName ("abcde7".toList) = false
    ∧ catPopulate 10 cxTreeChunkName 0 10
        = some ([⟨1, 0, "m".toList, 0, false, false⟩,
                 ⟨10, 1, "abcde7".toList, 8, false, false⟩], 11) :=
  ⟨by decide, by decide, by decide⟩

/-- C5 amended: Cat populate records every regular file (other than the
config file) with `part = parse(name[5..]) + 1` (wrapping in u64);
populate panics when the name is shorter than 5 bytes or when the suffix
fails to parse as u64.  Consequently every file whose name begins with
`scfs.` followed by ten decimal digits is recorded as a chunk with
`part` equal to that integer plus one (in particular `part ≠ 0`), but the
`scfs.` prefix itself is never checked, so the recognition is not an
"iff". -/
theorem cat_chunk_recognition_amended (name : List Char)
    (h : specChunkName name = true) :
    partOfName name = some (digitsVal (name.drop 5) + 1)
    ∧ 0 < digitsVal (name.drop 5) + 1 := by
  simp only [specChunkName, Bool.and_eq_true, decide_eq_true_eq] at h
  obtain ⟨⟨htake, hlen⟩, hall⟩ := h
  refine ⟨?_, Nat.succ_pos _⟩
  have hlen5 : ¬ name.length < 5 := by
    rw [List.length_drop] at hlen
    omega
  have hlen10 : (name.drop 5).length = 10 := hlen
  have hne : ¬ name.drop 5 = [] := by
    intro h0
    rw [h0] at hlen10
    simp at hlen10
  have hhead : ¬ (name.drop 5).head? = some '+' := by
    intro hh
    have hmem : '+' ∈ name.drop 5 := List.mem_of_mem_head? (by rw [hh]; rfl)
    rw [List.all_eq_true] at hall
    have hdig := hall _ hmem
    simp [isDigitB] at hdig
  have hbound : digitsVal (name.drop 5) < 2 ^ 64 := by
    have h10 := digitsVal_lt_pow (name.drop 5) hall
    rw [hlen10] at h10
    have hcmp : (10 : Nat) ^ 10 < 2 ^ 64 := by decide
    omega
  rw [partOfName, if_neg hlen5]
  simp only [parseU64]
  rw [if_neg hhead, if_neg hne, if_pos hall, if_pos hbound]
  simp only [Option.map_some']
  have hbound2 : digitsVal (name.drop 5) + 1 < 2 ^ 64 := by
    have h10 := digitsVal_lt_pow (name.drop 5) hall
    rw [hlen10] at h10
    have hcmp : (10 : Nat) ^ 10 + 1 < 2 ^ 64 := by decide
    omega
  have hmod : (digitsVal (name.drop 5) + 1) % 2 ^ 64 = digitsVal (name.drop 5) + 1 :=
    Nat.mod_eq_of_lt hbound2
  rw [hmod]

/-- C5 amended witness: `scfs.0000000002` is recorded with `part = 3`. -/
theorem cat_chunk_recognition_amended_witness :
    partOfName ("scfs.0000000002".toList)
      = some (digitsVal (("scfs.0000000002".toList).drop 5) + 1)
    ∧ 0 < digitsVal (("scfs.0000000002".toList).drop 5) + 1 :=
  cat_chunk_recognition_amended ("scfs.0000000002".toList) (by decide)

/-! ## Claim C6: inode assignment (corrected) -/

theorem scfs_range'_append (a : Nat) :
    ∀ s b, List.range' s a ++ List.range' (s + a) b = List.range' s (a + b) := by
  induction a with
  | zero => intro s b; simp
  | succ a' ih =>
    intro s b
    have h2 : a' + 1 + b = (a' + b) + 1 := by omega
    rw [h2]
    simp only [List.range', List.cons_append]
    have h1 : s + (a' + 1) = s + 1 + a' := by omega
    rw [h1, ih (s + 1) b]

/-- Inodes assigned by Cat populate below the root: a successful walk of
a subtree starting at counter value `i` uses exactly the inodes
`i, i + 1, ..., j - 1`, in row order. -/
theorem catPopulate_inos : ∀ fuel : Nat,
    (∀ t p i rows j, p ≠ 0 → 1 ≤ i → catPopulate fuel t p i = some (rows, j) →
        i ≤ j ∧ rows.map Row.ino = List.range' i (j - i))
    ∧ (∀ ts p i rows j, p ≠ 0 → 1 ≤ i → catPopulateList fuel ts p i = some (rows, j) →
        i ≤ j ∧ rows.map Row.ino = List.range' i (j - i)) := by
  intro fuel
  induction fuel with
  | zero =>
    constructor
    · intro t p i rows j _ _ h
      simp [catPopulate] at h
    · intro ts p i rows j _ _ h
      simp [catPopulateList] at h
  | succ fuel ih =>
    obtain ⟨ihN, ihL⟩ := ih
    constructor
    · intro t p i rows j hp hi h
      cases t with
      | special nm =>
        simp only [catPopulate, Option.some.injEq, Prod.mk.injEq] at h
        obtain ⟨hr, hj⟩ := h
        subst hr
        subst hj
        exact ⟨Nat.le_refl i, by simp [List.range']⟩
      | file nm sz =>
        by_cases hcfg : nm = configName
        · simp only [catPopulate, if_pos hcfg, Option.some.injEq, Prod.mk.injEq] at h
          obtain ⟨hr, hj⟩ := h
          subst hr
          subst hj
          exact ⟨Nat.le_refl i, by simp [List.range']⟩
        · simp only [catPopulate, INO_OUTSIDE] at h
          rw [if_neg hcfg, if_neg hp, if_neg hp] at h
          cases hpart : partOfName nm with
          | none => rw [hpart] at h; simp at h
          | some pv =>
            rw [hpart] at h
            simp only [Option.some_bind, Option.some.injEq, Prod.mk.injEq] at h
            obtain ⟨hr, hj⟩ := h
            subst hr
            subst hj
            refine ⟨by omega, ?_⟩
            have harr : i + 1 - i = 1 := by omega
            rw [harr]
            simp [List.range']
      | symlink nm tgt =>
        by_cases hcfg : nm = configName
        · simp only [catPopulate, if_pos hcfg, Option.some.injEq, Prod.mk.injEq] at h
          obtain ⟨hr, hj⟩ := h
          subst hr
          subst hj
          exact ⟨Nat.le_refl i, by simp [List.range']⟩
        · simp only [catPopulate, INO_OUTSIDE] at h
          rw [if_neg hcfg, if_neg hp, if_neg hp] at h
          simp only [Option.some.injEq, Prod.mk.injEq] at h
          obtain ⟨hr, hj⟩ := h
          subst hr
          subst hj
          refine ⟨by omega, ?_⟩
          have harr : i + 1 - i = 1 := by omega
          rw [harr]
          simp [List.range']
      | dir nm cs =>
        by_cases hcfg : nm = configName
        · simp only [catPopulate, if_pos hcfg, Option.some.injEq, Prod.mk.injEq] at h
          obtain ⟨hr, hj⟩ := h
          subst hr
          subst hj
          exact ⟨Nat.le_refl i, by simp [List.range']⟩
        · simp only [catPopulate, INO_OUTSIDE] at h
          rw [if_neg hcfg, if_neg hp, if_neg hp] at h
          cases hrec : catPopulateList fuel cs i (i + 1) with
          | none => rw [hrec] at h; simp at h
          | some rn =>
            obtain ⟨rs, j2⟩ := rn
            rw [hrec] at h
            simp only [Option.some_bind, Option.some.injEq, Prod.mk.injEq] at h
            obtain ⟨hr, hj⟩ := h
            have hrec2 := ihL cs i (i + 1) rs j2 (by omega) (by omega) hrec
            obtain ⟨hle, hmap⟩ := hrec2
            subst hr
            subst hj
            refine ⟨by omega, ?_⟩
            simp only [List.map_cons, hmap]
            have harr : j2 - i = (j2 - (i + 1)) + 1 := by omega
            rw [harr]
            simp [List.range']
    · intro ts p i rows j hp hi h
      cases ts with
      | nil =>
        simp only [catPopulateList, Option.some.injEq, Prod.mk.injEq] at h
        obtain ⟨hr, hj⟩ := h
        subst hr
        subst hj
        exact ⟨Nat.le_refl i, by simp [List.range']⟩
      | cons t ts =>
        simp only [catPopulateList] at h
        cases h1 : catPopulate fuel t p i with
        | none => rw [h1] at h; simp at h
        | some rn1 =>
          obtain ⟨rs1, m⟩ := rn1
          rw [h1] at h
          simp only [Option.some_bind] at h
          cases h2 : catPopulateList fuel ts p m with
          | none => rw [h2] at h; simp at h
          | some rn2 =>
            obtain ⟨rs2, j2⟩ := rn2
            rw [h2] at h
            simp only [Option.some_bind, Option.some.injEq, Prod.mk.injEq] at h
            obtain ⟨hr, hj⟩ := h
            obtain ⟨hle1, hmap1⟩ := ihN t p i rs1 m hp hi h1
            obtain ⟨hle2, hmap2⟩ := ihL ts p m rs2 j2 hp (by omega) h2
            subst hr
            subst hj
            refine ⟨by omega, ?_⟩
            rw [List.map_append, hmap1, hmap2]
            have hm : i + (m - i) = m := by omega
            have hap := scfs_range'_append (m - i) i (j2 - m)
            rw [hm] at hap
            rw [hap]
            congr 1
            omega

/-- C6 counterexample: Split populate draws non-root inodes from the
wall clock, not from a counter starting at 10.  Over a mirror with two
empty files and a clock that returns 999 on every call (timestamps can
repeat under fast allocation), the index holds inodes
`[1, 999, 1000, 999, 1000]` — none of the non-root inodes is drawn from
the counter, and inode uniqueness fails outright. -/
theorem inode_assignment_cx :
    ((splitPopulate (fun _ => 999) 1 10 cxTreeInode 0 0).map (fun rn => rn.1.map Row.ino)
        = some [1, 999, 1000, 999, 1000])
    ∧ ¬ (([1, 999, 1000, 999, 1000] : List Nat).Nodup) :=
  ⟨by decide, by decide⟩

/-- C6 amended: in Cat mode, the root directory is assigned `ROOT = 1`
and every other kept entry the next free inode from the monotonically
increasing counter starting at `10`, in walk order, so all inodes in the
index are distinct (first conjunct).  In Split mode, the root is
assigned 1, but every other entry's inode is the wall-clock timestamp at
its visit, with each chunk row at `parent inode + i + 1` (second
conjunct shows the file case), so uniqueness rests on the clock, not on
a counter. -/
theorem inode_assignment_amended :
    (∀ fuel t rows fin, catPopulate fuel t 0 10 = some (rows, fin) →
        (rows.map Row.ino = [] ∨ rows.map Row.ino = 1 :: List.range' 10 (fin - 10))
        ∧ (rows.map Row.ino).Nodup)
    ∧ (∀ (clock : Nat → Nat) (B fuel : Nat) (name : List Char) (size p k : Nat), p ≠ 0 →
        splitPopulate clock B (fuel + 1) (FNode.file name size) p k
          = some ((⟨clock k, p, name, 0, true, false⟩ : Row) ::
              (List.range (splitNumChunks size B)).map
                (fun i => (⟨clock k + i + 1, clock k, chunkFileName i, i + 1, false, false⟩
                  : Row)),
              k + 1)) := by
  constructor
  · intro fuel t rows fin h
    cases fuel with
    | zero => simp [catPopulate] at h
    | succ fuel =>
      cases t with
      | special nm =>
        simp only [catPopulate, Option.some.injEq, Prod.mk.injEq] at h
        obtain ⟨hr, hj⟩ := h
        subst hr
        exact ⟨Or.inl (by simp), by simp⟩
      | file nm sz =>
        by_cases hcfg : nm = configName
        · simp only [catPopulate, if_pos hcfg, Option.some.injEq, Prod.mk.injEq] at h
          obtain ⟨hr, hj⟩ := h
          subst hr
          exact ⟨Or.inl (by simp), by simp⟩
        · simp only [catPopulate, INO_OUTSIDE, INO_ROOT, eq_self_iff_true, if_true] at h
          rw [if_neg hcfg] at h
          cases hpart : partOfName nm with
          | none => rw [hpart] at h; simp at h
          | some pv =>
            rw [hpart] at h
            simp only [Option.some_bind, Option.some.injEq, Prod.mk.injEq] at h
            obtain ⟨hr, hj⟩ := h
            subst hr
            subst hj
            refine ⟨Or.inr ?_, by simp⟩
            simp [List.range']
      | symlink nm tgt =>
        by_cases hcfg : nm = configName
        · simp only [catPopulate, if_pos hcfg, Option.some.injEq, Prod.mk.injEq] at h
          obtain ⟨hr, hj⟩ := h
          subst hr
          exact ⟨Or.inl (by simp), by simp⟩
        · simp only [catPopulate, INO_OUTSIDE, INO_ROOT, eq_self_iff_true, if_true] at h
          rw [if_neg hcfg] at h
          simp only [Option.some.injEq, Prod.mk.injEq] at h
          obtain ⟨hr, hj⟩ := h
          subst hr
          subst hj
          refine ⟨Or.inr ?_, by simp⟩
          simp [List.range']
      | dir nm cs =>
        by_cases hcfg : nm = configName
        · simp only [catPopulate, if_pos hcfg, Option.some.injEq, Prod.mk.injEq] at h
          obtain ⟨hr, hj⟩ := h
          subst hr
          exact ⟨Or.inl (by simp), by simp⟩
        · simp only [catPopulate, INO_OUTSIDE, INO_ROOT, eq_self_iff_true, if_true] at h
          rw [if_neg hcfg] at h
          cases hrec : catPopulateList fuel cs 1 10 with
          | none => rw [hrec] at h; simp at h
          | some rn =>
            obtain ⟨rs, j2⟩ := rn
            rw [hrec] at h
            simp only [Option.some_bind, Option.some.injEq, Prod.mk.injEq] at h
            obtain ⟨hr, hj⟩ := h
            obtain ⟨hle, hmap⟩ :=
              (catPopulate_inos fuel).2 cs 1 10 rs j2 (by omega) (by omega) hrec
            subst hr
            subst hj
            refine ⟨Or.inr ?_, ?_⟩
            · simp only [List.map_cons, hmap]
            · simp only [List.map_cons, hmap, List.nodup_cons]
              refine ⟨?_, List.nodup_range' 10 (j2 - 10) 1 (by omega)⟩
              intro hmem
              rw [List.mem_range'_1] at hmem
              omega
  · intro clock B fuel name size p k hp
    simp only [splitPopulate, INO_OUTSIDE]
    rw [if_neg hp, if_neg hp]

/-- C6 amended witness: a Cat mirror holding one chunk directory with
one chunk yields inodes `[1, 10]`, distinct and counter-assigned. -/
theorem inode_assignment_amended_witness :
    (([(⟨1, 0, "m".toList, 0, false, false⟩ : Row),
       ⟨10, 1, "scfs.0000000000".toList, 1, false, false⟩].map Row.ino = []
      ∨ [(⟨1, 0, "m".toList, 0, false, false⟩ : Row),
         ⟨10, 1, "scfs.0000000000".toList, 1, false, false⟩].map Row.ino
          = 1 :: List.range' 10 (11 - 10))
    ∧ ([(⟨1, 0, "m".toList, 0, false, false⟩ : Row),
        ⟨10, 1, "scfs.0000000000".toList, 1, false, false⟩].map Row.ino).Nodup) :=
  inode_assignment_amended.1 5
    (FNode.dir ("m".toList) [FNode.file ("scfs.0000000000".toList) 1])
    [⟨1, 0, "m".toList, 0, false, false⟩, ⟨10, 1, "scfs.0000000000".toList, 1, false, false⟩]
    11 (by decide)

/-! ## Claim C9: symlink transparency (corrected) -/

/-- C9 counterexample: `Shared::readlink` pipes the target through
`to_str().unwrap()`, which panics on any target that is not valid UTF-8,
so the target byte sequence `[255]` is not returned verbatim — the claim
fails for that target byte sequence. -/
theorem symlink_transparency_cx : readlinkBytes [255] ≠ some [255] := by
  decide

/-- C9 amended: `readlink` returns the target string preserved verbatim
for every UTF-8-valid target byte sequence (first conjunct; non-UTF-8
targets panic the request instead).  Populate never inspects the target:
a symlink node is recorded as a symlink row — with `symlink = true`,
`part = 0`, no chunk rows — for every target byte sequence, existing or
broken, so a broken symlink does not crash the mount (second conjunct,
Split walk shown; the Cat walk stores the analogous row). -/
theorem symlink_transparency_amended :
    (∀ t : List Nat, utf8Valid t = true → readlinkBytes t = some t)
    ∧ (∀ (clock : Nat → Nat) (B fuel : Nat) (name : List Char) (tgt : List Nat) (p k : Nat),
        p ≠ 0 →
        splitPopulate clock B (fuel + 1) (FNode.symlink name tgt) p k
          = some ([(⟨clock k, p, name, 0, false, true⟩ : Row)], k + 1)) := by
  constructor
  · intro t ht
    simp [readlinkBytes, ht]
  · intro clock B fuel name tgt p k hp
    simp only [splitPopulate, INO_OUTSIDE]
    rw [if_neg hp, if_neg hp]

/-- C9 amended witness: an ASCII target round-trips through readlink,
and a symlink with the (broken, non-UTF-8) target `[255]` is still
populated as a symlink row. -/
theorem symlink_transparency_amended_witness :
    readlinkBytes [104, 105] = some [104, 105]
    ∧ splitPopulate (fun _ => 50) 4 1 (FNode.symlink ("l".toList) [255]) 1 0
        = some ([(⟨50, 1, "l".toList, 0, false, true⟩ : Row)], 1) :=
  ⟨symlink_transparency_amended.1 [104, 105] (by decide),
    symlink_transparency_amended.2 (fun _ => 50) 4 0 ("l".toList) [255] 1 0 (by decide)⟩

/-! ## Claims C1 and C3: the f64 chunk count loses data -/

theorem chunksB1_flatten (n : Nat) : ∀ l : List Nat,
    ((List.range n).map (fun i => (l.drop (i * 1)).take 1)).flatten = l.take n := by
  induction n with
  | zero => intro l; simp
  | succ n ih =>
    intro l
    rw [List.range_succ_eq_map]
    simp only [List.map_cons, List.map_map, List.flatten_cons]
    have hcomp : ((fun i => (l.drop (i * 1)).take 1) ∘ Nat.succ)
        = fun i => ((l.drop 1).drop (i * 1)).take 1 := by
      funext i
      simp only [Function.comp]
      rw [List.drop_drop, Nat.succ_mul, Nat.add_comm (i * 1) 1]
    rw [hcomp, ih (l.drop 1)]
    have harr : n + 1 = 1 + n := Nat.add_comm n 1
    rw [harr, List.take_add l 1 n]
    simp

/-- At the failing input, CatFS over the chunk directory the program
actually creates serves only the first `2^53` bytes of the file. -/
theorem roundtrip_f64_loss (content : List Nat) (hL : content.length = 2 ^ 53 + 1) :
    catRead 1 (codeSplitChunksB1 content) 0 content.length = content.take (2 ^ 53) := by
  have hfun : splitChunkData content 1 = fun i => (content.drop (i * 1)).take 1 :=
    funext (splitChunkData_eq content 1)
  have hn : splitNumChunksF64One content.length = 2 ^ 53 := by
    rw [hL]
    decide
  have hflat : (codeSplitChunksB1 content).flatten = content.take (2 ^ 53) := by
    rw [codeSplitChunksB1, hfun, hn, chunksB1_flatten]
  have htot : catTotal (codeSplitChunksB1 content) = 2 ^ 53 := by
    have h1 : (codeSplitChunksB1 content).flatten.length
        = catTotal (codeSplitChunksB1 content) := scfs_length_flatten _
    rw [← h1, hflat, List.length_take, hL]
    omega
  have hwf : chunksWF 1 (codeSplitChunksB1 content) = true := by
    rw [codeSplitChunksB1, hfun, hn, List.range_eq_range']
    apply chunksWF_range' 1 _ (2 ^ 53) 0
    · intro i _ h2
      simp only [List.length_take, List.length_drop, hL]
      omega
    · intro i _ _
      simp only [List.length_take]
      omega
  have hread := catRead_slice 1 (codeSplitChunksB1 content) (by omega) hwf 0 content.length
  rw [htot] at hread
  rw [hread, hflat]
  have hmin : min (0 + content.length) (2 ^ 53) - 0 = 2 ^ 53 := by
    rw [hL]
    omega
  rw [hmin]
  simp [List.take_take]

/-- C1: the program's split/cat round trip is not the identity on file
contents.  For the file of `2^53 + 1` zero bytes and blocksize `B = 1`,
the chunk count `SplitFS::populate` computes —
`1.max(f64::ceil(size as f64 / blocksize as f64) as u64)` — is `2^53`,
because the `as f64` cast rounds `2^53 + 1` down to `2^53` (ties to
even); serving Split, copying the chunk directory into a fresh Cat
mirror, and reading the file back through CatFS returns only the first
`2^53` bytes, so the final byte is lost and the round trip fails, while
the claim asserts the identity for every file.  The claim states the
program's evident intent (a bijective content transformation, which the
code's own tests assert by re-concatenating all parts); the f64 ceiling
is the slip. -/
theorem scfs_round_trip_f64_bug :
    catRead 1 (codeSplitChunksB1 (List.replicate (2 ^ 53 + 1) 0)) 0 (2 ^ 53 + 1)
        = (List.replicate (2 ^ 53 + 1) (0 : Nat)).take (2 ^ 53)
    ∧ catRead 1 (codeSplitChunksB1 (List.replicate (2 ^ 53 + 1) 0)) 0 (2 ^ 53 + 1)
        ≠ List.replicate (2 ^ 53 + 1) 0 := by
  have hL : (List.replicate (2 ^ 53 + 1) (0 : Nat)).length = 2 ^ 53 + 1 :=
    List.length_replicate _ _
  have h1 := roundtrip_f64_loss (List.replicate (2 ^ 53 + 1) 0) hL
  rw [hL] at h1
  refine ⟨h1, ?_⟩
  rw [h1]
  intro heq
  have hlen := congrArg List.length heq
  rw [List.length_take, List.length_replicate] at hlen
  omega

/-- C3: the program does not create `max(1, ceil(s / B))` chunk rows for
every file size.  At `s = 2^53 + 1`, `B = 1` the code's chunk count —
`1.max(f64::ceil(size as f64 / blocksize as f64) as u64)`, whose `as
f64` cast rounds `2^53 + 1` down to `2^53` (ties to even) — is `2^53`,
while the count the claim states (the exact ceiling, which
`splitNumChunks` computes) is `2^53 + 1`; the file's last byte is
covered by no chunk row.  The claim states the intended shape (the
code's own tests assert that all chunks concatenate back to the file and
that the chunk count is the ceiling); the f64 ceiling is the slip. -/
theorem splitfs_chunk_shape_f64_bug :
    splitNumChunksF64One (2 ^ 53 + 1) = 2 ^ 53
    ∧ splitNumChunks (2 ^ 53 + 1) 1 = 2 ^ 53 + 1
    ∧ splitNumChunksF64One (2 ^ 53 + 1) ≠ splitNumChunks (2 ^ 53 + 1) 1 :=
  ⟨by decide, by decide, by decide⟩
